import Mathlib

/-!
Verification of the Claudia encrypted vault engine against its specification.

The Rust sources (`src-tauri/src/crypto.rs`, `encrypted_storage.rs`,
`commands/vault.rs`, `commands/note.rs`, `commands/password.rs`) are shallowly
embedded below.  Byte strings are `List Nat` with every entry `< 256`; Rust
`&str` values are Lean `String`s, manipulated through their underlying
`List Char`.  External crates (`aes_gcm`, `argon2`, `base64`, the filesystem)
are modelled as noted on each definition.
-/

set_option linter.unusedVariables false

instance {ε α : Type} [DecidableEq ε] [DecidableEq α] : DecidableEq (Except ε α) := fun a b =>
  match a, b with
  | .error e, .error f =>
    if h : e = f then isTrue (by subst h; rfl) else isFalse (by simp [h])
  | .error _, .ok _ => isFalse (by simp)
  | .ok _, .error _ => isFalse (by simp)
  | .ok a, .ok b =>
    if h : a = b then isTrue (by subst h; rfl) else isFalse (by simp [h])

namespace Claudia

/-! ## Rust string primitives -/

/-- Rust `char::is_whitespace` (the Unicode `White_Space` property). -/
def isRustWhitespace (c : Char) : Bool :=
  let n := c.toNat
  decide (n = 0x20 ∨ (0x9 ≤ n ∧ n ≤ 0xD) ∨ n = 0x85 ∨ n = 0xA0 ∨
    n = 0x1680 ∨ (0x2000 ≤ n ∧ n ≤ 0x200A) ∨ n = 0x2028 ∨ n = 0x2029 ∨
    n = 0x202F ∨ n = 0x205F ∨ n = 0x3000)

/-- Rust `str::trim_start`. -/
def trimLeftL (l : List Char) : List Char := l.dropWhile isRustWhitespace

/-- Rust `str::trim_end`. -/
def trimRightL (l : List Char) : List Char :=
  (l.reverse.dropWhile isRustWhitespace).reverse

/-- Rust `str::trim`. -/
def trimL (l : List Char) : List Char := trimLeftL (trimRightL l)

/-- Split a character list at every `'\n'` (the accumulator holds the
current segment reversed), keeping the final segment even if empty. -/
def splitNlAux (acc : List Char) : List Char → List (List Char)
  | [] => [acc.reverse]
  | c :: cs =>
    if c = '\n' then acc.reverse :: splitNlAux [] cs
    else splitNlAux (c :: acc) cs

/-- Remove one trailing `'\r'` (a segment that ended in `"\r\n"`). -/
def stripCrL (l : List Char) : List Char :=
  if l.getLast? = some '\r' then l.dropLast else l

/-- Turn the `'\n'`-split segments into Rust `str::lines` output: every
segment but the last was followed by `'\n'` so loses a trailing `'\r'`;
a final empty segment (trailing newline) is dropped. -/
def rustLinesAux : List (List Char) → List (List Char)
  | [] => []
  | [last] => if last = [] then [] else [last]
  | p :: rest => stripCrL p :: rustLinesAux rest

/-- Rust `str::lines`. -/
def rustLines (s : String) : List (List Char) :=
  rustLinesAux (splitNlAux [] s.data)

/-! ## Encrypted record codec (`encrypted_storage.rs`) -/

def FORMAT_HEADER : String := "CLAUDIA-ENCRYPTED-v1"
def METADATA_MARKER : String := "[METADATA]"
def CONTENT_MARKER : String := "[CONTENT]"

/-- `encrypted_storage::EncryptedFile`. -/
structure EncryptedFile where
  metadata : String
  content : String
deriving DecidableEq, Repr

/-- The marker-scanning loop of `parseEncryptedFile` (`encrypted_storage.rs`
lines 25–35): iterate over the lines with index `i`, recording
`Some (i + 1)` at every line whose trim equals the given marker, so the
last occurrence wins. -/
def findMarkersAux (mm cm : List Char) :
    List (List Char) → Nat → Option Nat → Option Nat → Option Nat × Option Nat
  | [], _, m, c => (m, c)
  | l :: ls, i, m, c =>
    let t := trimL l
    if t = mm then findMarkersAux mm cm ls (i + 1) (some (i + 1)) c
    else if t = cm then findMarkersAux mm cm ls (i + 1) m (some (i + 1))
    else findMarkersAux mm cm ls (i + 1) m c

/-- Body of `encrypted_storage::parseEncryptedFile`, acting on the computed
list of lines. -/
def parseEncryptedLines (lines : List (List Char)) : Except String EncryptedFile :=
  match lines with
  | [] => .error "Invalid file format: missing header"
  | l0 :: _ =>
    if trimL l0 ≠ FORMAT_HEADER.data then
      .error "Invalid file format: missing header"
    else
      match findMarkersAux METADATA_MARKER.data CONTENT_MARKER.data lines 0 none none with
      | (none, _) => .error "Missing [METADATA] section"
      | (some _, none) => .error "Missing [CONTENT] section"
      | (some metadataIdx, some contentIdx) =>
        if metadataIdx ≥ contentIdx then
          .error "Invalid format: [METADATA] must come before [CONTENT]"
        else
          let metadata :=
            (((lines.drop metadataIdx).take (contentIdx - 1 - metadataIdx)).map trimL
              |>.filter (fun s => s ≠ [])).flatten
          let content :=
            ((lines.drop contentIdx).map trimL |>.filter (fun s => s ≠ [])).flatten
          .ok ⟨String.mk metadata, String.mk content⟩

/-- `encrypted_storage::parseEncryptedFile`. -/
def parseEncryptedFile (raw : String) : Except String EncryptedFile :=
  parseEncryptedLines (rustLines raw)

/-- `encrypted_storage::toEncryptedFile`. -/
def toEncryptedFile (encryptedMetadata encryptedContent : String) : String :=
  FORMAT_HEADER ++ "\n" ++ METADATA_MARKER ++ "\n" ++ encryptedMetadata ++ "\n"
    ++ CONTENT_MARKER ++ "\n" ++ encryptedContent ++ "\n"

/-- `encrypted_storage::isEncryptedFormat`: `raw.trim().starts_with(FORMAT_HEADER)`. -/
def isEncryptedFormat (raw : String) : Bool :=
  FORMAT_HEADER.data.isPrefixOf (trimL raw.data)

/-! Spec-side characterisations (used to state the claims independently of the
implementation above). -/

/-- The first line of `raw` that is not entirely whitespace, if any. -/
def firstNonWsLine (raw : String) : Option (List Char) :=
  (rustLines raw).find? (fun l => !(trimL l).isEmpty)

/-- Index of the last line whose trim equals `marker`. -/
def lastMarkerIdx (marker : List Char) : List (List Char) → Option Nat
  | [] => none
  | l :: ls =>
    match lastMarkerIdx marker ls with
    | some j => some (j + 1)
    | none => if trimL l = marker then some 0 else none

/-! ## Base64 (the external `base64` crate's STANDARD engine, modelled
concretely: standard alphabet, canonical `=` padding).  Bytes are `Nat`s
below 256. -/

def b64Alphabet : List Char :=
  "ABCDEFGHIJKLMNOPQRSTUVWXYZabcdefghijklmnopqrstuvwxyz0123456789+/".data

def b64CharOf (v : Nat) : Char := b64Alphabet.getD v '?'

def b64IndexAux (c : Char) : List Char → Nat → Option Nat
  | [], _ => none
  | x :: xs, i => if x = c then some i else b64IndexAux c xs (i + 1)

def b64IndexOf (c : Char) : Option Nat := b64IndexAux c b64Alphabet 0

def base64EncodeCore : List Nat → List Char
  | [] => []
  | [b1] => [b64CharOf (b1 / 4), b64CharOf (b1 % 4 * 16), '=', '=']
  | [b1, b2] =>
    [b64CharOf (b1 / 4), b64CharOf (b1 % 4 * 16 + b2 / 16),
      b64CharOf (b2 % 16 * 4), '=']
  | b1 :: b2 :: b3 :: rest =>
    b64CharOf (b1 / 4) :: b64CharOf (b1 % 4 * 16 + b2 / 16) ::
      b64CharOf (b2 % 16 * 4 + b3 / 64) :: b64CharOf (b3 % 64) ::
      base64EncodeCore rest

def base64DecodeCore : List Char → Option (List Nat)
  | [] => some []
  | c1 :: c2 :: c3 :: c4 :: rest =>
    match b64IndexOf c1, b64IndexOf c2 with
    | some v1, some v2 =>
      if c3 = '=' then
        if c4 = '=' ∧ rest = [] then some [v1 * 4 + v2 / 16] else none
      else
        match b64IndexOf c3 with
        | some v3 =>
          if c4 = '=' then
            if rest = [] then some [v1 * 4 + v2 / 16, v2 % 16 * 16 + v3 / 4]
            else none
          else
            match b64IndexOf c4 with
            | some v4 =>
              match base64DecodeCore rest with
              | some tail =>
                some ((v1 * 4 + v2 / 16) :: (v2 % 16 * 16 + v3 / 4) ::
                  (v3 % 4 * 64 + v4) :: tail)
              | none => none
            | none => none
        | none => none
    | _, _ => none
  | _ => none

def base64Encode (bs : List Nat) : String := String.mk (base64EncodeCore bs)

def base64Decode (s : String) : Option (List Nat) := base64DecodeCore s.data

/-! ## Cipher primitive (`crypto.rs`)

The external crates are not under `src/`, so they are modelled from the
spec.  `CryptoPrims` collects them as abstract deterministic functions:

* `ks`/`tg` — Modelled from the spec (§2 "key + nonce + plaintext →
  authenticated ciphertext, and the inverse"; §6 CipherBlob =
  `salt‖nonce‖ciphertext‖tag`): AES-256-GCM is CTR-mode keystream XOR
  followed by a 16-byte authentication tag; `ks key nonce len` is the
  keystream and `tg key nonce ciphertext` the tag.
* `kdf` — Modelled from the spec (§4.1 `deriveKey`): Argon2, a deterministic
  function of password and salt producing the 256-bit key.
* `utf8Enc`/`utf8Dec` — Rust's `str::as_bytes` / `String::from_utf8`. -/
structure CryptoPrims where
  ks : List Nat → List Nat → Nat → List Nat
  tg : List Nat → List Nat → List Nat → List Nat
  kdf : String → List Nat → List Nat
  utf8Enc : String → List Nat
  utf8Dec : List Nat → Option String

/-- Well-formedness of the modelled primitives: keystream length and tag
length are as in AES-GCM, and all produced bytes are bytes. -/
structure CryptoPrimsWF (P : CryptoPrims) : Prop where
  ksLen : ∀ k n l, (P.ks k n l).length = l
  ksBytes : ∀ pw salt n l b, b ∈ P.ks (P.kdf pw salt) n l → b < 256
  tgLen : ∀ k n c, (P.tg k n c).length = 16
  tgBytes : ∀ pw salt n c b, b ∈ P.tg (P.kdf pw salt) n c → b < 256
  utf8RT : ∀ s, P.utf8Dec (P.utf8Enc s) = some s
  utf8Bytes : ∀ s b, b ∈ P.utf8Enc s → b < 256

def SALT_SIZE : Nat := 16
def NONCE_SIZE : Nat := 12

/-- `aes_gcm` authenticated encryption (modelled): keystream XOR then tag. -/
def aeadEncrypt (P : CryptoPrims) (key nonce pt : List Nat) : List Nat :=
  let c := List.zipWith Nat.xor pt (P.ks key nonce pt.length)
  c ++ P.tg key nonce c

/-- `aes_gcm` authenticated decryption (modelled): split off the 16-byte
tag, recompute it, and on a match undo the keystream XOR. -/
def aeadDecrypt (P : CryptoPrims) (key nonce ct : List Nat) : Option (List Nat) :=
  if ct.length < 16 then none
  else
    let c := ct.take (ct.length - 16)
    let tag := ct.drop (ct.length - 16)
    if P.tg key nonce c = tag then
      some (List.zipWith Nat.xor c (P.ks key nonce c.length))
    else none

/-- `crypto::encrypt`.  The randomly drawn salt and nonce are explicit
arguments; key-derivation/encryption failures of the external crates are
modelled as infallible (the source only forwards their error strings). -/
def encrypt (P : CryptoPrims) (plaintext masterPassword : String)
    (salt nonce : List Nat) : String :=
  let key := P.kdf masterPassword salt
  let ciphertext := aeadEncrypt P key nonce (P.utf8Enc plaintext)
  base64Encode (salt ++ nonce ++ ciphertext)

/-- `crypto::decrypt`.  The base64 crate's `Display` message is modelled by
a fixed string; the in-source messages are verbatim. -/
def decrypt (P : CryptoPrims) (encrypted masterPassword : String) :
    Except String String :=
  match base64Decode encrypted with
  | none => .error "base64 decode error"
  | some combined =>
    if combined.length < SALT_SIZE + NONCE_SIZE + 1 then
      .error "Invalid encrypted data"
    else
      let salt := combined.take SALT_SIZE
      let nonce_bytes := (combined.drop SALT_SIZE).take NONCE_SIZE
      let ciphertext := combined.drop (SALT_SIZE + NONCE_SIZE)
      let key := P.kdf masterPassword salt
      match aeadDecrypt P key nonce_bytes ciphertext with
      | none => .error "Decryption failed - wrong password?"
      | some plaintext =>
        match P.utf8Dec plaintext with
        | some s => .ok s
        | none => .error "utf8 decode error"

/-- `encrypted_storage::createEncryptedFile`: encrypt metadata and content
independently (two fresh salt/nonce pairs) and serialize. -/
def createEncryptedFile (P : CryptoPrims)
    (yamlMetadata bodyContent masterPassword : String)
    (saltM nonceM saltC nonceC : List Nat) : String :=
  toEncryptedFile (encrypt P yamlMetadata masterPassword saltM nonceM)
    (encrypt P bodyContent masterPassword saltC nonceC)

/-! ### A concrete instantiation of the modelled primitives (used by the
closed witnesses; the theorems themselves quantify over all primitives). -/

/-- Inverse of `trivPrims.utf8Enc`: read three bytes per character. -/
def dec3 : List Nat → Option String
  | [] => some ""
  | b1 :: b2 :: b3 :: rest =>
    match dec3 rest with
    | some s => some (String.mk (Char.ofNat (b1 * 65536 + b2 * 256 + b3) :: s.data))
    | none => none
  | _ => none

/-- A simple concrete `CryptoPrims`: zero keystream, a tag equal to the
first 16 key bytes, a key derived from the password's character codes, and
a 3-bytes-per-character text codec. -/
def trivPrims : CryptoPrims where
  ks := fun _ _ l => List.replicate l 0
  tg := fun k _ _ => (k ++ List.replicate 16 0).take 16
  kdf := fun pw _ =>
    (pw.data.map (fun ch : Char => ch.toNat % 256) ++ List.replicate 32 0).take 32
  utf8Enc := fun s =>
    (s.data.map (fun ch : Char =>
      [ch.toNat / 65536, ch.toNat / 256 % 256, ch.toNat % 256])).flatten
  utf8Dec := dec3

/-! ## Vault session and commands (`commands/vault.rs`, `commands/note.rs`,
`commands/password.rs`)

The `Storage` session methods (`isUnlocked`, `getMasterPassword`,
`setDerivedKey`, `lock`, `updateActivity`, `masterPasswordHashPath`) are
called from the commands but their implementation is not under `src/`; they
are modelled from the spec (§3 VaultSession, §4.4) as operations on an
explicit state.  The filesystem is part of the state: `hashFile` is the
content of the credential-hash file at the fixed per-workspace path (`none`
= absent) and `folders` is the workspace `folders/` directory tree. -/

/-- `argon2` password hashing for verification storage (external crate,
modelled): `hashPassword` takes the random salt draw as an explicit
argument; `verifyPassword` checks a candidate against a stored hash. -/
structure HashPrims where
  hashPassword : String → Nat → String
  verifyPassword : String → String → Bool

/-- A directory tree: the workspace record files. -/
inductive FsTree where
  | file (name : String) (content : String)
  | dir (name : String) (entries : List FsTree)

mutual

/-- All `(name, content)` files in a tree. -/
def FsTree.filesIn : FsTree → List (String × String)
  | .file n c => [(n, c)]
  | .dir _ entries => filesInList entries

def filesInList : List FsTree → List (String × String)
  | [] => []
  | t :: ts => t.filesIn ++ filesInList ts

end

/-- Modelled from the spec (§3 VaultSession): process-wide session state.
`resident` holds the master password and its derived key while unlocked
(`Storage.setDerivedKey` / `Storage.getMasterPassword` are not under
`src/`; per spec §3 the session "holds the master password (or an
equivalent key material)" while unlocked). -/
structure VaultState where
  workspacePath : Option String
  hashFile : Option String
  folders : FsTree
  resident : Option (String × List Nat)
  lastActivity : Nat

/-- Modelled from the spec: `Storage.isUnlocked` — key material resident. -/
def VaultState.isUnlocked (s : VaultState) : Bool := s.resident.isSome

/-- Modelled from the spec: `Storage.getMasterPassword` — the resident
master password, if unlocked. -/
def VaultState.getMasterPassword (s : VaultState) : Option String :=
  s.resident.map Prod.fst

/-- Modelled from the spec: `Storage.setDerivedKey` — store key material
(the session retains the password it was derived from). -/
def VaultState.setDerivedKey (s : VaultState) (pw : String) (key : List Nat) :
    VaultState :=
  { s with resident := some (pw, key) }

/-- Modelled from the spec: `Storage.updateActivity` — reset the
idle-auto-lock timestamp. -/
def VaultState.updateActivity (s : VaultState) (now : Nat) : VaultState :=
  { s with lastActivity := now }

/-- The spec's `Locked` session state: credential hash on disk (which
presupposes a selected workspace), no key material in memory. -/
def VaultState.isLockedState (s : VaultState) : Prop :=
  s.workspacePath.isSome ∧ s.hashFile.isSome ∧ s.resident = none

/-- `commands::vault::deriveKeyFromPassword` (vault.rs lines 206–220):
deterministic Argon2 derivation with the fixed salt
`"claudia-vault-{len}"` where `len` is the password's byte length. -/
def deriveKeyFromPassword (P : CryptoPrims) (password : String) : List Nat :=
  let salt := "claudia-vault-" ++ toString (P.utf8Enc password).length
  P.kdf password (P.utf8Enc salt)

/-- `commands::vault::unlockVault`.  Reading the hash file is modelled as
the lookup `s.hashFile` (absent file ↔ `none`; read errors not modelled). -/
def unlockVault (P : CryptoPrims) (H : HashPrims) (s : VaultState)
    (password : String) : Except String Bool × VaultState :=
  match s.workspacePath with
  | none => (.error "No workspace selected", s)
  | some _ =>
    match s.hashFile with
    | none => (.error "Vault not set up - no master password", s)
    | some storedHash =>
      if ! H.verifyPassword password storedHash then (.ok false, s)
      else (.ok true, s.setDerivedKey password (deriveKeyFromPassword P password))

/-- A file write performed by the rotation procedure, in program order. -/
inductive WriteEvent where
  | hashWrite
  | recordWrite (path : String)
deriving DecidableEq, Repr

/-- Supply of fresh randomness for the rotation walk: the i-th encryption
call uses `salt i` and `nonce i`.  Modelled from the spec (§3 CipherBlob:
"salt and nonce are fresh random values every call"). -/
structure RandomTape where
  salt : Nat → List Nat
  nonce : Nat → List Nat

/-- The tape really produces 16-byte salts and 12-byte nonces. -/
structure RandomTapeWF (tape : RandomTape) : Prop where
  saltLen : ∀ i, (tape.salt i).length = 16
  saltBytes : ∀ i b, b ∈ tape.salt i → b < 256
  nonceLen : ∀ i, (tape.nonce i).length = 12
  nonceBytes : ∀ i b, b ∈ tape.nonce i → b < 256

/-- Rust `Path::extension() == Some("md")`: the name ends in `".md"` with a
non-empty stem. -/
def hasMdExtension (name : String) : Bool :=
  ".md".data.isSuffixOf name.data && name != ".md"

mutual

/-- `commands::vault::reEncryptDirectory` (vault.rs lines 239–272) on one
entry.  Returns `(error?, updated entry, next tape index, writes)`; an
error aborts the walk leaving already-rewritten files in place.  File reads
are modelled as infallible (the tree holds the contents). -/
def reEncryptTree (P : CryptoPrims) (tape : RandomTape)
    (oldPassword newPassword path : String) :
    FsTree → Nat → Option String × FsTree × Nat × List WriteEvent
  | .file name content, i =>
    if hasMdExtension name then
      if isEncryptedFormat content then
        match parseEncryptedFile content with
        | .error e => (some e, .file name content, i, [])
        | .ok encrypted =>
          match decrypt P encrypted.metadata oldPassword with
          | .error e => (some e, .file name content, i, [])
          | .ok metadata =>
            match decrypt P encrypted.content oldPassword with
            | .error e => (some e, .file name content, i, [])
            | .ok body =>
              (none,
                .file name (createEncryptedFile P metadata body newPassword
                  (tape.salt i) (tape.nonce i)
                  (tape.salt (i + 1)) (tape.nonce (i + 1))),
                i + 2, [.recordWrite (path ++ "/" ++ name)])
      else (none, .file name content, i, [])
    else (none, .file name content, i, [])
  | .dir name entries, i =>
    match reEncryptList P tape oldPassword newPassword (path ++ "/" ++ name)
        entries i with
    | (err, entries', i', evs) => (err, .dir name entries', i', evs)

def reEncryptList (P : CryptoPrims) (tape : RandomTape)
    (oldPassword newPassword path : String) :
    List FsTree → Nat → Option String × List FsTree × Nat × List WriteEvent
  | [], i => (none, [], i, [])
  | t :: ts, i =>
    match reEncryptTree P tape oldPassword newPassword path t i with
    | (some e, t', i', evs) => (some e, t' :: ts, i', evs)
    | (none, t', i', evs) =>
      match reEncryptList P tape oldPassword newPassword path ts i' with
      | (err, ts', i'', evs') => (err, t' :: ts', i'', evs ++ evs')

end

/-- `commands::vault::changeMasterPasswordVault` (vault.rs lines 97–137),
with `reEncryptAllFiles` inlined as the walk over the workspace `folders`
tree.  Returns result, new state, and the ordered trace of file writes. -/
def changeMasterPasswordVault (P : CryptoPrims) (H : HashPrims)
    (tape : RandomTape) (rand : Nat) (s : VaultState)
    (oldPassword newPassword : String) :
    Except String Unit × VaultState × List WriteEvent :=
  match s.workspacePath with
  | none => (.error "No workspace selected", s, [])
  | some ws =>
    match s.hashFile with
    | none => (.error "Vault not set up", s, [])
    | some storedHash =>
      if H.verifyPassword oldPassword storedHash then
        let newHash := H.hashPassword newPassword rand
        match reEncryptTree P tape oldPassword newPassword ws s.folders 0 with
        | (some e, t', _, evs) =>
          (.error e, { s with hashFile := some newHash, folders := t' },
            .hashWrite :: evs)
        | (none, t', _, evs) =>
          (.ok (),
            { s with
                hashFile := some newHash
                folders := t'
                resident := some (newPassword, deriveKeyFromPassword P newPassword) },
            .hashWrite :: evs)
      else (.error "Current password is incorrect", s, [])

/-- `commands::note::getNotes` (note.rs lines 160–208).  The scanning of
the tree (`scanNotesInFolder` / `scanAllNotes`) is abstracted as the
continuation `scan`, applied to the optional master password and the folder
path; the claims concern only the workspace/lock gate in front of it. -/
def getNotes {α : Type} (scan : Option String → Option String → α)
    (empty : α) (now : Nat) (s : VaultState) (folderPath : Option String) :
    Except String α × VaultState :=
  match s.workspacePath with
  | none => (.ok empty, s)
  | some _ =>
    if ! s.isUnlocked then (.error "Vault is locked", s)
    else (.ok (scan s.getMasterPassword folderPath), s.updateActivity now)

/-- `commands::password::getPasswords` (password.rs lines 157–190); the
gate is identical to `getNotes`. -/
def getPasswords {α : Type} (scan : Option String → Option String → α)
    (empty : α) (now : Nat) (s : VaultState) (folderPath : Option String) :
    Except String α × VaultState :=
  match s.workspacePath with
  | none => (.ok empty, s)
  | some _ =>
    if ! s.isUnlocked then (.error "Vault is locked", s)
    else (.ok (scan s.getMasterPassword folderPath), s.updateActivity now)

/-- Record content decrypts under `pw`: it parses and both sections
decrypt. -/
def recordReadableUnder (P : CryptoPrims) (content pw : String) : Prop :=
  ∃ ef m b, parseEncryptedFile content = .ok ef ∧
    decrypt P ef.metadata pw = .ok m ∧ decrypt P ef.content pw = .ok b

/-- Record content fails to decrypt under `pw`: however it parses, both
sections error. -/
def recordFailsUnder (P : CryptoPrims) (content pw : String) : Prop :=
  ∀ ef, parseEncryptedFile content = .ok ef →
    (∃ e, decrypt P ef.metadata pw = .error e) ∧
    (∃ e, decrypt P ef.content pw = .error e)

/-! ### Concrete instances for the closed witnesses and counterexamples -/

def trivHash : HashPrims where
  hashPassword := fun pw r => pw ++ "#" ++ toString r
  verifyPassword := fun pw h => h == pw ++ "#0"

def trivTape : RandomTape where
  salt := fun i => List.replicate 16 (i % 256)
  nonce := fun i => List.replicate 12 (i % 256)

/-- A record encrypted under `"old"` with the concrete primitives. -/
def demoRecord : String :=
  createEncryptedFile trivPrims "t" "b" "old"
    (trivTape.salt 100) (trivTape.nonce 100)
    (trivTape.salt 101) (trivTape.nonce 101)

/-- A set-up, locked workspace holding one encrypted record. -/
def demoState : VaultState where
  workspacePath := some "ws"
  hashFile := some "old#0"
  folders := .dir "folders" [.file "a.md" demoRecord]
  resident := none
  lastActivity := 0

/-! ## Lemmas: Rust string primitives -/

theorem dropWhile_eq_self_of_not (p : Char → Bool) (l : List Char)
    (h : ∀ c ∈ l, ¬ p c) : l.dropWhile p = l := by
  cases l with
  | nil => rfl
  | cons a as =>
    rw [List.dropWhile_cons]
    simp [h a (List.mem_cons_self a as)]

theorem dropWhile_append_all (p : Char → Bool) (a b : List Char)
    (ha : ∀ c ∈ a, p c) : (a ++ b).dropWhile p = b.dropWhile p := by
  induction a with
  | nil => rfl
  | cons x xs ih =>
    rw [List.cons_append, List.dropWhile_cons]
    simp only [ha x (List.mem_cons_self x xs), if_true]
    exact ih fun c hc => ha c (List.mem_cons_of_mem x hc)

theorem dropWhile_cons_neg (p : Char → Bool) (a : Char) (l : List Char)
    (h : ¬ p a) : (a :: l).dropWhile p = a :: l := by
  rw [List.dropWhile_cons]
  simp [h]

theorem dropWhile_append_split (p : Char → Bool) (a b : List Char) :
    (a ++ b).dropWhile p =
      if (a.dropWhile p).isEmpty then b.dropWhile p else a.dropWhile p ++ b := by
  induction a with
  | nil => simp
  | cons x xs ih =>
    rw [List.cons_append, List.dropWhile_cons, List.dropWhile_cons]
    by_cases hx : p x
    · simp only [hx, if_true]
      exact ih
    · simp [hx]

theorem trimLeftL_eq_self (l : List Char) (h : ∀ c ∈ l, ¬ isRustWhitespace c) :
    trimLeftL l = l :=
  dropWhile_eq_self_of_not _ _ h

theorem trimRightL_eq_self (l : List Char) (h : ∀ c ∈ l, ¬ isRustWhitespace c) :
    trimRightL l = l := by
  unfold trimRightL
  rw [dropWhile_eq_self_of_not _ _ (fun c hc => h c (List.mem_reverse.mp hc)),
    List.reverse_reverse]

theorem trimL_eq_self (l : List Char) (h : ∀ c ∈ l, ¬ isRustWhitespace c) :
    trimL l = l := by
  unfold trimL
  rw [trimRightL_eq_self l h, trimLeftL_eq_self l h]

theorem trimL_decomp (l : List Char) :
    ∃ p s, l = p ++ trimL l ++ s ∧ (∀ c ∈ p, isRustWhitespace c) ∧
      ∀ c ∈ s, isRustWhitespace c := by
  have h1 : trimRightL l ++ (l.reverse.takeWhile isRustWhitespace).reverse = l := by
    unfold trimRightL
    rw [← List.reverse_append, List.takeWhile_append_dropWhile, List.reverse_reverse]
  have h2 : (trimRightL l).takeWhile isRustWhitespace ++ trimL l = trimRightL l := by
    unfold trimL trimLeftL
    exact List.takeWhile_append_dropWhile _ _
  refine ⟨(trimRightL l).takeWhile isRustWhitespace,
    (l.reverse.takeWhile isRustWhitespace).reverse, ?_, ?_, ?_⟩
  · conv_lhs => rw [← h1, ← h2]
  · exact fun c hc => List.mem_takeWhile_imp hc
  · exact fun c hc => List.mem_takeWhile_imp (List.mem_reverse.mp hc)

theorem stripCrL_eq_self (l : List Char) (h : ∀ c ∈ l, ¬ isRustWhitespace c) :
    stripCrL l = l := by
  unfold stripCrL
  rw [if_neg]
  intro hg
  obtain ⟨hne, heq⟩ := List.mem_getLast?_eq_getLast (Option.mem_def.mpr hg)
  exact h '\r' (heq ▸ List.getLast_mem hne) (by decide)

theorem splitNlAux_no_nl (a : List Char) (hnl : '\n' ∉ a) :
    ∀ acc, splitNlAux acc a = [acc.reverse ++ a] := by
  induction a with
  | nil => intro acc; simp [splitNlAux]
  | cons x xs ih =>
    intro acc
    have hx : x ≠ '\n' := fun he => hnl (he ▸ List.mem_cons_self x xs)
    rw [splitNlAux, if_neg hx, ih (fun hm => hnl (List.mem_cons_of_mem x hm))]
    simp

theorem splitNlAux_append (a rest : List Char) (hnl : '\n' ∉ a) :
    ∀ acc, splitNlAux acc (a ++ '\n' :: rest) =
      (acc.reverse ++ a) :: splitNlAux [] rest := by
  induction a with
  | nil => intro acc; simp [splitNlAux]
  | cons x xs ih =>
    intro acc
    have hx : x ≠ '\n' := fun he => hnl (he ▸ List.mem_cons_self x xs)
    rw [List.cons_append, splitNlAux, if_neg hx,
      ih (fun hm => hnl (List.mem_cons_of_mem x hm))]
    simp

theorem trimRightL_append_split (a b : List Char) :
    trimRightL (a ++ b) =
      if trimRightL b = [] then trimRightL a else a ++ trimRightL b := by
  unfold trimRightL
  rw [List.reverse_append, dropWhile_append_split]
  by_cases hb : (b.reverse.dropWhile isRustWhitespace).reverse = []
  · have hb' : b.reverse.dropWhile isRustWhitespace = [] :=
      List.reverse_eq_nil_iff.mp hb
    simp [hb, hb']
  · have hb' : b.reverse.dropWhile isRustWhitespace ≠ [] := by
      intro h0
      exact hb (by rw [h0]; rfl)
    rw [if_neg hb]
    have : (b.reverse.dropWhile isRustWhitespace).isEmpty = false := by
      cases h0 : b.reverse.dropWhile isRustWhitespace with
      | nil => exact absurd h0 hb'
      | cons x xs => rfl
    rw [this]
    simp

theorem trimLeftL_append_header (x : List Char) :
    trimLeftL (FORMAT_HEADER.data ++ x) = FORMAT_HEADER.data ++ x := by
  have hhd : FORMAT_HEADER.data = 'C' :: FORMAT_HEADER.data.tail := by decide
  rw [hhd, List.cons_append]
  exact dropWhile_cons_neg _ _ _ (by decide)

/-- The implementation's marker scan (last assignment wins) computes the last
marker occurrence of `lastMarkerIdx`, shifted by the start index plus one. -/
theorem findMarkersAux_eq (mm cm : List Char) (hne : mm ≠ cm) :
    ∀ (lines : List (List Char)) (i : Nat) (m c : Option Nat),
      findMarkersAux mm cm lines i m c =
        ((match lastMarkerIdx mm lines with
          | some j => some (i + j + 1)
          | none => m),
         (match lastMarkerIdx cm lines with
          | some j => some (i + j + 1)
          | none => c)) := by
  intro lines
  induction lines with
  | nil => intro i m c; rfl
  | cons l ls ih =>
    intro i m c
    by_cases h1 : trimL l = mm
    · have h2 : ¬ trimL l = cm := by rw [h1]; exact hne
      rw [show findMarkersAux mm cm (l :: ls) i m c
          = findMarkersAux mm cm ls (i + 1) (some (i + 1)) c by
        simp only [findMarkersAux]
        rw [if_pos h1]]
      rw [ih]
      rcases hm : lastMarkerIdx mm ls with _ | j <;>
        rcases hc : lastMarkerIdx cm ls with _ | k <;>
        simp [lastMarkerIdx, hm, hc, h1, h2, hne, Ne.symm hne] <;>
        omega
    · by_cases h2 : trimL l = cm
      · rw [show findMarkersAux mm cm (l :: ls) i m c
            = findMarkersAux mm cm ls (i + 1) m (some (i + 1)) by
          simp only [findMarkersAux]
          rw [if_neg h1, if_pos h2]]
        rw [ih]
        rcases hm : lastMarkerIdx mm ls with _ | j <;>
          rcases hc : lastMarkerIdx cm ls with _ | k <;>
          simp [lastMarkerIdx, hm, hc, h1, h2, hne, Ne.symm hne] <;>
          omega
      · rw [show findMarkersAux mm cm (l :: ls) i m c
            = findMarkersAux mm cm ls (i + 1) m c by
          simp only [findMarkersAux]
          rw [if_neg h1, if_neg h2]]
        rw [ih]
        rcases hm : lastMarkerIdx mm ls with _ | j <;>
          rcases hc : lastMarkerIdx cm ls with _ | k <;>
          simp [lastMarkerIdx, hm, hc, h1, h2, hne, Ne.symm hne] <;>
          omega

/-- The serialized file splits into exactly the five expected lines. -/
theorem rustLines_toEncryptedFile (m c : String)
    (hmw : ∀ ch ∈ m.data, ¬ isRustWhitespace ch)
    (hcw : ∀ ch ∈ c.data, ¬ isRustWhitespace ch) :
    rustLines (toEncryptedFile m c) =
      [FORMAT_HEADER.data, METADATA_MARKER.data, m.data,
        CONTENT_MARKER.data, c.data] := by
  have hmnl : '\n' ∉ m.data := fun h => hmw _ h (by decide)
  have hcnl : '\n' ∉ c.data := fun h => hcw _ h (by decide)
  unfold rustLines toEncryptedFile
  simp only [String.data_append, List.append_assoc, List.singleton_append,
    List.cons_append, List.nil_append]
  rw [splitNlAux_append FORMAT_HEADER.data _ (by decide)]
  rw [splitNlAux_append METADATA_MARKER.data _ (by decide)]
  rw [splitNlAux_append m.data _ hmnl]
  rw [splitNlAux_append CONTENT_MARKER.data _ (by decide)]
  rw [splitNlAux_append c.data _ hcnl]
  simp [splitNlAux, rustLinesAux, stripCrL_eq_self _ hmw, stripCrL_eq_self _ hcw,
    show stripCrL FORMAT_HEADER.data = FORMAT_HEADER.data by decide,
    show stripCrL METADATA_MARKER.data = METADATA_MARKER.data by decide,
    show stripCrL CONTENT_MARKER.data = CONTENT_MARKER.data by decide]

/-- Codec round-trip at the character-list level. -/
theorem parse_toEncryptedFile (m c : String) (hm0 : m.data ≠ []) (hc0 : c.data ≠ [])
    (hmw : ∀ ch ∈ m.data, ¬ isRustWhitespace ch)
    (hcw : ∀ ch ∈ c.data, ¬ isRustWhitespace ch)
    (hm1 : m.data ≠ METADATA_MARKER.data) (hm2 : m.data ≠ CONTENT_MARKER.data)
    (hc1 : c.data ≠ METADATA_MARKER.data) (hc2 : c.data ≠ CONTENT_MARKER.data) :
    parseEncryptedFile (toEncryptedFile m c) = .ok ⟨m, c⟩ := by
  have htm : trimL m.data = m.data := trimL_eq_self _ hmw
  have htc : trimL c.data = c.data := trimL_eq_self _ hcw
  have hMM : lastMarkerIdx METADATA_MARKER.data
      [FORMAT_HEADER.data, METADATA_MARKER.data, m.data,
        CONTENT_MARKER.data, c.data] = some 1 := by
    simp [lastMarkerIdx, htm, htc, hm1, hc1,
      show trimL FORMAT_HEADER.data = FORMAT_HEADER.data by decide,
      show trimL METADATA_MARKER.data = METADATA_MARKER.data by decide,
      show trimL CONTENT_MARKER.data = CONTENT_MARKER.data by decide,
      show CONTENT_MARKER.data ≠ METADATA_MARKER.data by decide,
      show FORMAT_HEADER.data ≠ METADATA_MARKER.data by decide]
  have hCM : lastMarkerIdx CONTENT_MARKER.data
      [FORMAT_HEADER.data, METADATA_MARKER.data, m.data,
        CONTENT_MARKER.data, c.data] = some 3 := by
    simp [lastMarkerIdx, htm, htc, hm2, hc2,
      show trimL FORMAT_HEADER.data = FORMAT_HEADER.data by decide,
      show trimL METADATA_MARKER.data = METADATA_MARKER.data by decide,
      show trimL CONTENT_MARKER.data = CONTENT_MARKER.data by decide,
      show METADATA_MARKER.data ≠ CONTENT_MARKER.data by decide,
      show FORMAT_HEADER.data ≠ CONTENT_MARKER.data by decide]
  unfold parseEncryptedFile
  rw [rustLines_toEncryptedFile m c hmw hcw]
  simp only [parseEncryptedLines]
  rw [findMarkersAux_eq _ _ (by decide), hMM, hCM]
  simp [htm, htc, hm0, hc0,
    show trimL FORMAT_HEADER.data = FORMAT_HEADER.data by decide]

theorem trimLeftL_append_all (a b : List Char)
    (ha : ∀ c ∈ a, isRustWhitespace c) : trimLeftL (a ++ b) = trimLeftL b :=
  dropWhile_append_all _ _ _ ha

theorem trimRightL_header_append (r : List Char) :
    ∃ t, trimRightL (FORMAT_HEADER.data ++ r) = FORMAT_HEADER.data ++ t := by
  by_cases hr : trimRightL r = []
  · refine ⟨[], ?_⟩
    rw [trimRightL_append_split, if_pos hr,
      show trimRightL FORMAT_HEADER.data = FORMAT_HEADER.data by decide,
      List.append_nil]
  · exact ⟨trimRightL r, by rw [trimRightL_append_split, if_neg hr]⟩

/-- **C8** (amended): `isEncryptedFormat` returns true iff the raw text is an
all-whitespace prefix, followed by the literal format header, followed by an
arbitrary suffix — i.e. the first non-whitespace line must merely *begin*
with the header, not equal it. -/
theorem claim_C8_isEncryptedFormat_characterization (raw : String) :
    isEncryptedFormat raw = true ↔
      ∃ p r, raw.data = p ++ FORMAT_HEADER.data ++ r ∧
        ∀ ch ∈ p, isRustWhitespace ch := by
  unfold isEncryptedFormat
  rw [List.isPrefixOf_iff_prefix]
  constructor
  · intro h
    obtain ⟨t, ht⟩ := h
    obtain ⟨p, s, hps, hp, hs⟩ := trimL_decomp raw.data
    refine ⟨p, t ++ s, ?_, hp⟩
    rw [hps, ← ht]
    simp [List.append_assoc]
  · rintro ⟨p, r, heq, hp⟩
    rw [heq, List.append_assoc]
    obtain ⟨t, ht⟩ := trimRightL_header_append r
    have hne : trimRightL (FORMAT_HEADER.data ++ r) ≠ [] := by
      rw [ht]
      have hh : FORMAT_HEADER.data ≠ [] := by decide
      simp [hh]
    unfold trimL
    rw [trimRightL_append_split, if_neg hne, ht, trimLeftL_append_all _ _ hp,
      trimLeftL_append_header]
    exact ⟨t, rfl⟩

/-- **C8** counterexample: on `"CLAUDIA-ENCRYPTED-v1X"` the function returns
true although the first non-whitespace line is not exactly the header, so the
claimed equality-based iff is false. -/
theorem claim_C8_counterexample :
    isEncryptedFormat "CLAUDIA-ENCRYPTED-v1X" = true ∧
    firstNonWsLine "CLAUDIA-ENCRYPTED-v1X" = some "CLAUDIA-ENCRYPTED-v1X".data ∧
    "CLAUDIA-ENCRYPTED-v1X".data ≠ FORMAT_HEADER.data :=
  ⟨by decide, by decide, by decide⟩

/-- **C7** (amended): whenever `parseEncryptedFile` succeeds, the first line
trims to the format header, both markers occur, and the last `[METADATA]`
marker line precedes the last `[CONTENT]` marker line.  (The original claim
additionally required at least one non-empty metadata line; the
counterexample shows parsing succeeds with an empty metadata section.) -/
theorem claim_C7_parse_success_requirements (raw : String) (ef : EncryptedFile)
    (h : parseEncryptedFile raw = .ok ef) :
    (∃ l0 ls, rustLines raw = l0 :: ls ∧ trimL l0 = FORMAT_HEADER.data) ∧
    (∃ i j, lastMarkerIdx METADATA_MARKER.data (rustLines raw) = some i ∧
      lastMarkerIdx CONTENT_MARKER.data (rustLines raw) = some j ∧ i < j) := by
  unfold parseEncryptedFile at h
  rcases hl : rustLines raw with _ | ⟨l0, ls⟩
  · rw [hl] at h
    exact absurd h (by simp [parseEncryptedLines])
  · rw [hl] at h
    simp only [parseEncryptedLines] at h
    by_cases hh : trimL l0 = FORMAT_HEADER.data
    · rw [if_neg (not_not_intro hh)] at h
      rw [findMarkersAux_eq _ _ (by decide)] at h
      rcases hmi : lastMarkerIdx METADATA_MARKER.data (l0 :: ls) with _ | i
      · rw [hmi] at h
        simp at h
      · rcases hci : lastMarkerIdx CONTENT_MARKER.data (l0 :: ls) with _ | j
        · rw [hci] at h
          rw [hmi] at h
          simp at h
        · rw [hmi, hci] at h
          simp only [] at h
          rcases Nat.lt_or_ge i j with hij | hij
          · exact ⟨⟨l0, ls, rfl, hh⟩, ⟨i, j, rfl, rfl, hij⟩⟩
          · rw [if_pos (by omega)] at h
            simp at h
    · rw [if_pos hh] at h
      simp at h

/-- **C7** counterexample: a record with *no* line at all between the
`[METADATA]` and `[CONTENT]` markers still parses successfully (with empty
metadata), refuting the claimed necessity of "one or more non-empty
lines" after `[METADATA]`. -/
theorem claim_C7_counterexample :
    parseEncryptedFile "CLAUDIA-ENCRYPTED-v1\n[METADATA]\n[CONTENT]\nabc" =
      .ok ⟨"", "abc"⟩ ∧
    rustLines "CLAUDIA-ENCRYPTED-v1\n[METADATA]\n[CONTENT]\nabc" =
      [FORMAT_HEADER.data, METADATA_MARKER.data, CONTENT_MARKER.data,
        "abc".data] :=
  ⟨by decide, by decide⟩

/-- Witness for the amended C7 theorem at a concrete well-formed record. -/
theorem claim_C7_witness :
    parseEncryptedFile "CLAUDIA-ENCRYPTED-v1\n[METADATA]\nAAA\n[CONTENT]\nBBB" =
      .ok ⟨"AAA", "BBB"⟩ ∧
    ((∃ l0 ls, rustLines "CLAUDIA-ENCRYPTED-v1\n[METADATA]\nAAA\n[CONTENT]\nBBB"
        = l0 :: ls ∧ trimL l0 = FORMAT_HEADER.data) ∧
     (∃ i j, lastMarkerIdx METADATA_MARKER.data
        (rustLines "CLAUDIA-ENCRYPTED-v1\n[METADATA]\nAAA\n[CONTENT]\nBBB") = some i ∧
      lastMarkerIdx CONTENT_MARKER.data
        (rustLines "CLAUDIA-ENCRYPTED-v1\n[METADATA]\nAAA\n[CONTENT]\nBBB") = some j ∧
      i < j)) :=
  ⟨by decide, claim_C7_parse_success_requirements _ ⟨"AAA", "BBB"⟩ (by decide)⟩

/-- **C10**: the encrypted-record codec round-trips — serializing two
non-empty whitespace-free non-marker blobs and reparsing returns exactly the
two blobs. -/
theorem claim_C10_codec_roundtrip (m c : String) (hm0 : m ≠ "") (hc0 : c ≠ "")
    (hmw : ∀ ch ∈ m.data, ¬ isRustWhitespace ch)
    (hcw : ∀ ch ∈ c.data, ¬ isRustWhitespace ch)
    (hm1 : m ≠ METADATA_MARKER) (hm2 : m ≠ CONTENT_MARKER) (hm3 : m ≠ FORMAT_HEADER)
    (hc1 : c ≠ METADATA_MARKER) (hc2 : c ≠ CONTENT_MARKER) (hc3 : c ≠ FORMAT_HEADER) :
    parseEncryptedFile (toEncryptedFile m c) = .ok ⟨m, c⟩ :=
  parse_toEncryptedFile m c
    (fun h => hm0 (String.ext h)) (fun h => hc0 (String.ext h)) hmw hcw
    (fun h => hm1 (String.ext h)) (fun h => hm2 (String.ext h))
    (fun h => hc1 (String.ext h)) (fun h => hc2 (String.ext h))

/-- Witness for C10 at concrete base64-looking blobs. -/
theorem claim_C10_codec_roundtrip_witness :
    ("QUJD" : String) ≠ "" ∧
    parseEncryptedFile (toEncryptedFile "QUJD" "ZGVm") = .ok ⟨"QUJD", "ZGVm"⟩ :=
  ⟨by decide, claim_C10_codec_roundtrip "QUJD" "ZGVm" (by decide) (by decide)
    (by decide) (by decide) (by decide) (by decide) (by decide) (by decide)
    (by decide) (by decide)⟩

/-! ## Vault claim theorems -/

/-- **C4**: unlocking with a password that fails verification against the
stored credential hash returns `Ok false` (not an error) and leaves the
session state completely unchanged — in particular still Locked with no key
material resident. -/
theorem claim_C4_unlock_wrong_password (P : CryptoPrims) (H : HashPrims)
    (s : VaultState) (password ws storedHash : String)
    (hws : s.workspacePath = some ws) (hh : s.hashFile = some storedHash)
    (hres : s.resident = none)
    (hv : H.verifyPassword password storedHash = false) :
    unlockVault P H s password = (.ok false, s) ∧
    (unlockVault P H s password).2.isLockedState := by
  have h1 : unlockVault P H s password = (.ok false, s) := by
    unfold unlockVault
    rw [hws, hh]
    simp [hv]
  refine ⟨h1, ?_⟩
  rw [h1]
  exact ⟨by rw [hws]; rfl, by rw [hh]; rfl, hres⟩

/-- Witness for C4: wrong password against the demo workspace. -/
theorem claim_C4_unlock_wrong_password_witness :
    trivHash.verifyPassword "wrong" "old#0" = false ∧
    (unlockVault trivPrims trivHash demoState "wrong" = (.ok false, demoState) ∧
      (unlockVault trivPrims trivHash demoState "wrong").2.isLockedState) :=
  ⟨by decide, claim_C4_unlock_wrong_password trivPrims trivHash demoState
    "wrong" "ws" "old#0" rfl rfl rfl (by decide)⟩

/-- **C5**: `changeMasterPasswordVault` with an old password that fails
verification aborts with the incorrect-password error, writes nothing (the
trace is empty), and returns the state unchanged — the credential hash and
every record file are byte-for-byte as before. -/
theorem claim_C5_change_password_wrong_old (P : CryptoPrims) (H : HashPrims)
    (tape : RandomTape) (rand : Nat) (s : VaultState)
    (oldPassword newPassword ws storedHash : String)
    (hws : s.workspacePath = some ws) (hh : s.hashFile = some storedHash)
    (hv : H.verifyPassword oldPassword storedHash = false) :
    changeMasterPasswordVault P H tape rand s oldPassword newPassword =
      (.error "Current password is incorrect", s, []) := by
  unfold changeMasterPasswordVault
  rw [hws, hh]
  simp [hv]

/-- Witness for C5: wrong old password against the demo workspace. -/
theorem claim_C5_change_password_wrong_old_witness :
    trivHash.verifyPassword "wrong" "old#0" = false ∧
    changeMasterPasswordVault trivPrims trivHash trivTape 0 demoState
      "wrong" "new" = (.error "Current password is incorrect", demoState, []) :=
  ⟨by decide, claim_C5_change_password_wrong_old trivPrims trivHash trivTape 0
    demoState "wrong" "new" "ws" "old#0" rfl rfl (by decide)⟩

/-- **C6**: while the session is in the spec's `Locked` state (hash on
disk, no key material resident), the record-listing commands `getNotes` and
`getPasswords` fail with the vault-locked error — whatever the scanning
continuation would return, they never produce data while locked. -/
theorem claim_C6_locked_operations_fail {α : Type}
    (scan : Option String → Option String → α) (empty : α) (now : Nat)
    (s : VaultState) (folderPath : Option String)
    (hlock : s.isLockedState) :
    getNotes scan empty now s folderPath = (.error "Vault is locked", s) ∧
    getPasswords scan empty now s folderPath = (.error "Vault is locked", s) := by
  obtain ⟨hws, hh, hres⟩ := hlock
  obtain ⟨ws, hws'⟩ := Option.isSome_iff_exists.mp hws
  have hu : s.isUnlocked = false := by
    unfold VaultState.isUnlocked
    rw [hres]
    rfl
  refine ⟨?_, ?_⟩
  · unfold getNotes
    rw [hws']
    simp [hu]
  · unfold getPasswords
    rw [hws']
    simp [hu]

/-- Witness for C6: the demo workspace is locked and both commands fail. -/
theorem claim_C6_locked_operations_fail_witness :
    demoState.isLockedState ∧
    (getNotes (fun _ _ => (0 : Nat)) 0 7 demoState none =
        (.error "Vault is locked", demoState) ∧
      getPasswords (fun _ _ => (0 : Nat)) 0 7 demoState none =
        (.error "Vault is locked", demoState)) :=
  ⟨⟨by decide, by decide, rfl⟩,
    claim_C6_locked_operations_fail _ 0 7 demoState none
      ⟨by decide, by decide, rfl⟩⟩

mutual

/-- Every write emitted by the rotation walk on one entry is a record
write. -/
theorem reEncryptTree_events (P : CryptoPrims) (tape : RandomTape)
    (oldPassword newPassword path : String) :
    ∀ (t : FsTree) (i : Nat),
      ∀ e ∈ (reEncryptTree P tape oldPassword newPassword path t i).2.2.2,
        ∃ p, e = WriteEvent.recordWrite p
  | .file name content, i => by
    intro e he
    simp only [reEncryptTree] at he
    repeat' split at he
    all_goals simp_all
  | .dir name entries, i => by
    intro e he
    simp only [reEncryptTree] at he
    rcases hr : reEncryptList P tape oldPassword newPassword
        (path ++ "/" ++ name) entries i with ⟨err, es', i', evs⟩
    rw [hr] at he
    simp only [] at he
    exact reEncryptList_events P tape oldPassword newPassword
      (path ++ "/" ++ name) entries i e (by rw [hr]; exact he)

/-- Every write emitted by the rotation walk on a list of entries is a
record write. -/
theorem reEncryptList_events (P : CryptoPrims) (tape : RandomTape)
    (oldPassword newPassword path : String) :
    ∀ (ts : List FsTree) (i : Nat),
      ∀ e ∈ (reEncryptList P tape oldPassword newPassword path ts i).2.2.2,
        ∃ p, e = WriteEvent.recordWrite p
  | [], i => by
    intro e he
    simp [reEncryptList] at he
  | t :: ts, i => by
    intro e he
    simp only [reEncryptList] at he
    rcases hr : reEncryptTree P tape oldPassword newPassword path t i with
      ⟨err, t', i', evs⟩
    rw [hr] at he
    rcases err with _ | e0
    · simp only [] at he
      rcases List.mem_append.mp he with h | h
      · exact reEncryptTree_events P tape oldPassword newPassword path t i e
          (by rw [hr]; exact h)
      · exact reEncryptList_events P tape oldPassword newPassword path ts i' e h
    · simp only [] at he
      exact reEncryptTree_events P tape oldPassword newPassword path t i e
        (by rw [hr]; exact he)

end

/-- **C9** (amended): in every execution of `changeMasterPasswordVault`,
the write trace is either empty or consists of the credential-hash write
followed exclusively by record rewrites — the new hash is persisted
strictly *before* the re-encryption walk, never after or interleaved. -/
theorem claim_C9_hash_persisted_before_walk (P : CryptoPrims) (H : HashPrims)
    (tape : RandomTape) (rand : Nat) (s : VaultState)
    (oldPassword newPassword : String) :
    (changeMasterPasswordVault P H tape rand s oldPassword newPassword).2.2 = [] ∨
    ∃ rest,
      (changeMasterPasswordVault P H tape rand s oldPassword newPassword).2.2 =
        WriteEvent.hashWrite :: rest ∧
      ∀ e ∈ rest, ∃ p, e = WriteEvent.recordWrite p := by
  unfold changeMasterPasswordVault
  rcases s.workspacePath with _ | ws
  · left; rfl
  · rcases s.hashFile with _ | storedHash
    · left; rfl
    · simp only []
      by_cases hv : H.verifyPassword oldPassword storedHash = true
      · rw [if_pos hv]
        rcases hr : reEncryptTree P tape oldPassword newPassword ws s.folders 0
          with ⟨err, t', i', evs⟩
        rcases err with _ | e0 <;>
          exact Or.inr ⟨evs, by simp [hr],
            fun e he => reEncryptTree_events P tape oldPassword newPassword
              ws s.folders 0 e (by rw [hr]; exact he)⟩
      · rw [if_neg hv]
        left
        rfl

/-- **C9** counterexample: on a workspace with one encrypted record, the
write trace is the hash write *strictly before* the record rewrite, so the
claim that the hash is persisted "after, or interleaved with" the walk —
never strictly before the first record rewrite — is false. -/
theorem claim_C9_counterexample :
    (changeMasterPasswordVault trivPrims trivHash trivTape 0 demoState
        "old" "new").2.2 =
      [WriteEvent.hashWrite, WriteEvent.recordWrite "ws/folders/a.md"] ∧
    (changeMasterPasswordVault trivPrims trivHash trivTape 0 demoState
        "old" "new").1 = .ok () :=
  ⟨by decide, by decide⟩

/-! ## Base64 lemmas -/

theorem b64IndexOf_charOf : ∀ v, v < 64 → b64IndexOf (b64CharOf v) = some v := by
  decide

theorem b64CharOf_ne_pad : ∀ v, v < 64 → b64CharOf v ≠ '=' := by
  decide

theorem b64CharOf_mem_alphabet : ∀ v, v < 64 → b64CharOf v ∈ b64Alphabet := by
  decide

theorem b64IndexAux_lt (c : Char) :
    ∀ (l : List Char) (i v : Nat), b64IndexAux c l i = some v → v < i + l.length := by
  intro l
  induction l with
  | nil => intro i v h; exact absurd h (by simp [b64IndexAux])
  | cons x xs ih =>
    intro i v h
    rw [b64IndexAux] at h
    by_cases hx : x = c
    · rw [if_pos hx] at h
      injection h with h
      simp only [List.length_cons]
      omega
    · rw [if_neg hx] at h
      have := ih (i + 1) v h
      simp only [List.length_cons]
      omega

theorem b64IndexOf_lt (c : Char) (v : Nat) (h : b64IndexOf c = some v) : v < 64 := by
  have := b64IndexAux_lt c b64Alphabet 0 v h
  simpa using this

/-- Base64 round-trip at the character level. -/
theorem base64_core_rt : ∀ (bs : List Nat), (∀ b ∈ bs, b < 256) →
    base64DecodeCore (base64EncodeCore bs) = some bs
  | [], _ => rfl
  | [b1], h => by
    have hb : b1 < 256 := h b1 (by simp)
    have h1 := b64IndexOf_charOf (b1 / 4) (by omega)
    have h2 := b64IndexOf_charOf (b1 % 4 * 16) (by omega)
    simp only [base64EncodeCore, base64DecodeCore, h1, h2]
    rw [show b1 / 4 * 4 + b1 % 4 * 16 / 16 = b1 by omega]
    simp
  | [b1, b2], h => by
    have hb1 : b1 < 256 := h b1 (by simp)
    have hb2 : b2 < 256 := h b2 (by simp)
    have h1 := b64IndexOf_charOf (b1 / 4) (by omega)
    have h2 := b64IndexOf_charOf (b1 % 4 * 16 + b2 / 16) (by omega)
    have h3 := b64IndexOf_charOf (b2 % 16 * 4) (by omega)
    have e1 : b1 / 4 * 4 + (b1 % 4 * 16 + b2 / 16) / 16 = b1 := by omega
    have e2 : (b1 % 4 * 16 + b2 / 16) % 16 * 16 + b2 % 16 * 4 / 4 = b2 := by
      omega
    simp only [base64EncodeCore, base64DecodeCore, h1, h2, h3]
    rw [e1, e2]
    simp [b64CharOf_ne_pad (b2 % 16 * 4) (by omega)]
  | b1 :: b2 :: b3 :: rest, h => by
    have hb1 : b1 < 256 := h b1 (by simp)
    have hb2 : b2 < 256 := h b2 (by simp)
    have hb3 : b3 < 256 := h b3 (by simp)
    have h1 := b64IndexOf_charOf (b1 / 4) (by omega)
    have h2 := b64IndexOf_charOf (b1 % 4 * 16 + b2 / 16) (by omega)
    have h3 := b64IndexOf_charOf (b2 % 16 * 4 + b3 / 64) (by omega)
    have h4 := b64IndexOf_charOf (b3 % 64) (by omega)
    have ih := base64_core_rt rest
      (fun b hb => h b (by simp [hb]))
    have e1 : b1 / 4 * 4 + (b1 % 4 * 16 + b2 / 16) / 16 = b1 := by omega
    have e2 : (b1 % 4 * 16 + b2 / 16) % 16 * 16 + (b2 % 16 * 4 + b3 / 64) / 4
        = b2 := by omega
    have e3 : (b2 % 16 * 4 + b3 / 64) % 4 * 64 + b3 % 64 = b3 := by omega
    simp only [base64EncodeCore, base64DecodeCore, h1, h2, h3, h4]
    rw [e1, e2, e3, ih]
    simp [b64CharOf_ne_pad (b2 % 16 * 4 + b3 / 64) (by omega),
      b64CharOf_ne_pad (b3 % 64) (by omega)]

theorem base64_rt (bs : List Nat) (h : ∀ b ∈ bs, b < 256) :
    base64Decode (base64Encode bs) = some bs :=
  base64_core_rt bs h

/-! ## Cipher round-trip lemmas -/

theorem zipWith_xor_bytes : ∀ (xs ys : List Nat), (∀ a ∈ xs, a < 256) →
    (∀ b ∈ ys, b < 256) → ∀ z ∈ List.zipWith Nat.xor xs ys, z < 256
  | [], ys, _, _ => by simp
  | a :: as, [], _, _ => by simp
  | a :: as, b :: bs, hx, hy => by
    intro z hz
    rw [List.zipWith_cons_cons] at hz
    rcases List.mem_cons.mp hz with h | h
    · subst h
      have h256 : (256 : Nat) = 2 ^ 8 := by norm_num
      rw [h256]
      exact Nat.xor_lt_two_pow (h256 ▸ hx a (by simp)) (h256 ▸ hy b (by simp))
    · exact zipWith_xor_bytes as bs (fun x hx' => hx x (by simp [hx']))
        (fun y hy' => hy y (by simp [hy'])) z h

theorem zipWith_xor_invol : ∀ (xs ys : List Nat), ys.length = xs.length →
    List.zipWith Nat.xor (List.zipWith Nat.xor xs ys) ys = xs
  | [], _, _ => by simp
  | a :: as, [], h => by simp at h
  | a :: as, b :: bs, h => by
    rw [List.zipWith_cons_cons, List.zipWith_cons_cons,
      zipWith_xor_invol as bs (by simpa using h)]
    congr 1
    exact Nat.xor_cancel_right b a

/-- All bytes of the combined `salt‖nonce‖ciphertext‖tag` blob are bytes. -/
theorem encrypt_combined_bytes (P : CryptoPrims) (W : CryptoPrimsWF P)
    (pt pw : String) (salt nonce : List Nat)
    (hsb : ∀ b ∈ salt, b < 256) (hnb : ∀ b ∈ nonce, b < 256) :
    ∀ b ∈ salt ++ nonce ++
      aeadEncrypt P (P.kdf pw salt) nonce (P.utf8Enc pt), b < 256 := by
  intro b hb
  rcases List.mem_append.mp hb with h | h
  · rcases List.mem_append.mp h with h2 | h2
    · exact hsb b h2
    · exact hnb b h2
  · rcases List.mem_append.mp h with h3 | h3
    · exact zipWith_xor_bytes _ _ (W.utf8Bytes pt)
        (fun z hz => W.ksBytes pw salt nonce _ z hz) b h3
    · exact W.tgBytes pw salt nonce _ b h3

/-- The ciphertext produced by one AEAD call is the XOR part plus a 16-byte
tag. -/
theorem aeadEncrypt_length (P : CryptoPrims) (W : CryptoPrimsWF P)
    (key nonce pt : List Nat) :
    (aeadEncrypt P key nonce pt).length = pt.length + 16 := by
  unfold aeadEncrypt
  rw [List.length_append, W.tgLen, List.length_zipWith, W.ksLen, Nat.min_self]

/-- Decrypting an `encrypt` output with the same password recovers the
plaintext. -/
theorem decrypt_encrypt (P : CryptoPrims) (W : CryptoPrimsWF P)
    (pt pw : String) (salt nonce : List Nat)
    (hs : salt.length = 16) (hsb : ∀ b ∈ salt, b < 256)
    (hn : nonce.length = 12) (hnb : ∀ b ∈ nonce, b < 256) :
    decrypt P (encrypt P pt pw salt nonce) pw = .ok pt := by
  unfold encrypt decrypt
  rw [base64_rt _ (encrypt_combined_bytes P W pt pw salt nonce hsb hnb)]
  simp only [SALT_SIZE, NONCE_SIZE]
  have hct := aeadEncrypt_length P W (P.kdf pw salt) nonce (P.utf8Enc pt)
  rw [if_neg (by
    simp only [List.length_append, hs, hn, hct]
    omega)]
  rw [List.append_assoc]
  rw [List.take_left' hs]
  rw [List.drop_left' hs, List.take_left' hn]
  rw [← List.append_assoc]
  rw [List.drop_left' (by rw [List.length_append, hs, hn])]
  unfold aeadEncrypt aeadDecrypt
  have hcLen : (List.zipWith Nat.xor (P.utf8Enc pt)
      (P.ks (P.kdf pw salt) nonce (P.utf8Enc pt).length)).length
      = (P.utf8Enc pt).length := by
    rw [List.length_zipWith, W.ksLen, Nat.min_self]
  have hlen2 : (List.zipWith Nat.xor (P.utf8Enc pt)
      (P.ks (P.kdf pw salt) nonce (P.utf8Enc pt).length) ++
      P.tg (P.kdf pw salt) nonce (List.zipWith Nat.xor (P.utf8Enc pt)
        (P.ks (P.kdf pw salt) nonce (P.utf8Enc pt).length))).length
      = (P.utf8Enc pt).length + 16 := by
    rw [List.length_append, W.tgLen, hcLen]
  rw [if_neg (by rw [hlen2]; omega)]
  rw [hlen2, show (P.utf8Enc pt).length + 16 - 16 = (P.utf8Enc pt).length
    from by omega]
  rw [List.take_left' hcLen, List.drop_left' hcLen]
  rw [if_pos rfl]
  rw [hcLen, zipWith_xor_invol _ _ (W.ksLen _ _ _)]
  simp [W.utf8RT]

/-- Decrypting an `encrypt` output with a password whose derived key yields
a different tag fails with the single generic decryption error. -/
theorem decrypt_encrypt_wrong (P : CryptoPrims) (W : CryptoPrimsWF P)
    (pt pw pw' : String) (salt nonce : List Nat)
    (hs : salt.length = 16) (hsb : ∀ b ∈ salt, b < 256)
    (hn : nonce.length = 12) (hnb : ∀ b ∈ nonce, b < 256)
    (hsep : ∀ n c, P.tg (P.kdf pw' salt) n c ≠ P.tg (P.kdf pw salt) n c) :
    decrypt P (encrypt P pt pw salt nonce) pw' =
      .error "Decryption failed - wrong password?" := by
  unfold encrypt decrypt
  rw [base64_rt _ (encrypt_combined_bytes P W pt pw salt nonce hsb hnb)]
  simp only [SALT_SIZE, NONCE_SIZE]
  have hct := aeadEncrypt_length P W (P.kdf pw salt) nonce (P.utf8Enc pt)
  rw [if_neg (by
    simp only [List.length_append, hs, hn, hct]
    omega)]
  rw [List.append_assoc]
  rw [List.take_left' hs]
  rw [List.drop_left' hs, List.take_left' hn]
  rw [← List.append_assoc]
  rw [List.drop_left' (by rw [List.length_append, hs, hn])]
  unfold aeadEncrypt aeadDecrypt
  have hcLen : (List.zipWith Nat.xor (P.utf8Enc pt)
      (P.ks (P.kdf pw salt) nonce (P.utf8Enc pt).length)).length
      = (P.utf8Enc pt).length := by
    rw [List.length_zipWith, W.ksLen, Nat.min_self]
  have hlen2 : (List.zipWith Nat.xor (P.utf8Enc pt)
      (P.ks (P.kdf pw salt) nonce (P.utf8Enc pt).length) ++
      P.tg (P.kdf pw salt) nonce (List.zipWith Nat.xor (P.utf8Enc pt)
        (P.ks (P.kdf pw salt) nonce (P.utf8Enc pt).length))).length
      = (P.utf8Enc pt).length + 16 := by
    rw [List.length_append, W.tgLen, hcLen]
  rw [if_neg (by rw [hlen2]; omega)]
  rw [hlen2, show (P.utf8Enc pt).length + 16 - 16 = (P.utf8Enc pt).length
    from by omega]
  rw [List.take_left' hcLen, List.drop_left' hcLen]
  rw [if_neg (hsep nonce _)]

theorem char_toNat_lt (c : Char) : c.toNat < 1114112 := by
  have h := c.valid
  rcases h with h | ⟨h1, h2⟩ <;> (show c.val.toNat < 1114112) <;> omega

theorem dec3_enc : ∀ (l : List Char),
    dec3 ((l.map (fun ch : Char =>
      [ch.toNat / 65536, ch.toNat / 256 % 256, ch.toNat % 256])).flatten) =
      some (String.mk l)
  | [] => rfl
  | c :: cs => by
    simp only [List.map_cons, List.flatten_cons, List.cons_append,
      List.nil_append]
    simp only [dec3]
    rw [dec3_enc cs]
    simp only []
    have ht := char_toNat_lt c
    have : c.toNat / 65536 * 65536 + c.toNat / 256 % 256 * 256 + c.toNat % 256
        = c.toNat := by omega
    rw [this, Char.ofNat_toNat]

/-- The concrete primitives are well-formed. -/
theorem trivPrims_wf : CryptoPrimsWF trivPrims := by
  refine ⟨?_, ?_, ?_, ?_, ?_, ?_⟩
  · intro k n l
    simp [trivPrims]
  · intro pw salt n l b hb
    simp [trivPrims] at hb
    omega
  · intro k n c
    simp [trivPrims]
  · intro pw salt n c b hb
    simp only [trivPrims] at hb
    have hb2 := List.mem_of_mem_take hb
    rcases List.mem_append.mp hb2 with h | h
    · have h3 := List.mem_of_mem_take h
      rcases List.mem_append.mp h3 with h4 | h4
      · obtain ⟨ch, _, hch⟩ := List.mem_map.mp h4
        omega
      · have := List.eq_of_mem_replicate h4
        omega
    · have := List.eq_of_mem_replicate h
      omega
  · intro s
    exact dec3_enc s.data
  · intro s b hb
    simp only [trivPrims] at hb
    obtain ⟨l, hl, hbl⟩ := List.mem_flatten.mp hb
    obtain ⟨ch, _, hch⟩ := List.mem_map.mp hl
    have ht := char_toNat_lt ch
    rw [← hch] at hbl
    simp only [List.mem_cons, List.not_mem_nil, or_false] at hbl
    rcases hbl with h | h | h <;> omega

/-! ## Cipher claim theorems (C1, C3) -/

/-- **C1**: for every plaintext `P` and password `K`, decrypting the result
of encrypting `P` under `K` with the same `K` returns `P`, for arbitrary
16-byte salt and 12-byte nonce drawn during encryption and for every
well-formed instantiation of the modelled external primitives
(Argon2/AES-GCM/base64). -/
theorem claim_C1_crypto_roundtrip (P : CryptoPrims) (W : CryptoPrimsWF P)
    (pt pw : String) (salt nonce : List Nat)
    (hs : salt.length = 16) (hsb : ∀ b ∈ salt, b < 256)
    (hn : nonce.length = 12) (hnb : ∀ b ∈ nonce, b < 256) :
    decrypt P (encrypt P pt pw salt nonce) pw = .ok pt :=
  decrypt_encrypt P W pt pw salt nonce hs hsb hn hnb

/-- Witness for C1 at a concrete plaintext, password, salt and nonce. -/
theorem claim_C1_crypto_roundtrip_witness :
    (List.replicate 16 7).length = 16 ∧
    decrypt trivPrims
      (encrypt trivPrims "hi" "pw" (List.replicate 16 7) (List.replicate 12 9))
      "pw" = .ok "hi" :=
  ⟨by decide, claim_C1_crypto_roundtrip trivPrims trivPrims_wf "hi" "pw" _ _
    (by decide) (by decide) (by decide) (by decide)⟩

/-- **C3** (amended): every authentication failure — whatever its cause —
yields the one fixed error string, and every too-short input yields a
different fixed error string; the two failure classes are therefore
distinguishable, contrary to the original claim. -/
theorem claim_C3_decrypt_error_messages (P : CryptoPrims) :
    (∀ blob pw combined, base64Decode blob = some combined →
      ¬ combined.length < 29 →
      aeadDecrypt P (P.kdf pw (combined.take 16))
        ((combined.drop 16).take 12) (combined.drop (16 + 12)) = none →
      decrypt P blob pw = .error "Decryption failed - wrong password?") ∧
    (∀ blob pw combined, base64Decode blob = some combined →
      combined.length < 29 →
      decrypt P blob pw = .error "Invalid encrypted data") ∧
    ("Invalid encrypted data" : String) ≠ "Decryption failed - wrong password?" := by
  refine ⟨?_, ?_, by decide⟩
  · intro blob pw combined hdec hlen haead
    unfold decrypt
    rw [hdec]
    simp only [SALT_SIZE, NONCE_SIZE]
    rw [if_neg (by omega), haead]
  · intro blob pw combined hdec hlen
    unfold decrypt
    rw [hdec]
    simp only [SALT_SIZE, NONCE_SIZE]
    rw [if_pos (by omega)]

/-- **C3** counterexample: two failing decrypt calls — one on malformed
(too short) input, one on an authentication-tag mismatch — return
*different* error values, so the two causes are distinguishable from the
returned value, refuting the claim. -/
theorem claim_C3_counterexample :
    decrypt trivPrims "" "pw" = .error "Invalid encrypted data" ∧
    decrypt trivPrims (base64Encode (List.replicate 44 1)) "pw" =
      .error "Decryption failed - wrong password?" ∧
    ("Invalid encrypted data" : String) ≠ "Decryption failed - wrong password?" :=
  ⟨by decide, by decide, by decide⟩

/-! ## Rotation correctness lemmas (C2) -/

theorem base64EncodeCore_ne_nil : ∀ bs : List Nat, bs ≠ [] →
    base64EncodeCore bs ≠ []
  | [], h => absurd rfl h
  | [b1], _ => by simp [base64EncodeCore]
  | [b1, b2], _ => by simp [base64EncodeCore]
  | b1 :: b2 :: b3 :: rest, _ => by simp [base64EncodeCore]

theorem base64EncodeCore_chars : ∀ bs : List Nat, (∀ b ∈ bs, b < 256) →
    ∀ ch ∈ base64EncodeCore bs, ch ∈ b64Alphabet ∨ ch = '='
  | [], _ => by simp [base64EncodeCore]
  | [b1], h => by
    have hb : b1 < 256 := h b1 (by simp)
    intro ch hch
    simp only [base64EncodeCore, List.mem_cons, List.not_mem_nil,
      or_false] at hch
    rcases hch with h1 | h1 | h1 | h1
    · exact Or.inl (h1 ▸ b64CharOf_mem_alphabet _ (by omega))
    · exact Or.inl (h1 ▸ b64CharOf_mem_alphabet _ (by omega))
    · exact Or.inr h1
    · exact Or.inr h1
  | [b1, b2], h => by
    have hb1 : b1 < 256 := h b1 (by simp)
    have hb2 : b2 < 256 := h b2 (by simp)
    intro ch hch
    simp only [base64EncodeCore, List.mem_cons, List.not_mem_nil,
      or_false] at hch
    rcases hch with h1 | h1 | h1 | h1
    · exact Or.inl (h1 ▸ b64CharOf_mem_alphabet _ (by omega))
    · exact Or.inl (h1 ▸ b64CharOf_mem_alphabet _ (by omega))
    · exact Or.inl (h1 ▸ b64CharOf_mem_alphabet _ (by omega))
    · exact Or.inr h1
  | b1 :: b2 :: b3 :: rest, h => by
    have hb1 : b1 < 256 := h b1 (by simp)
    have hb2 : b2 < 256 := h b2 (by simp)
    have hb3 : b3 < 256 := h b3 (by simp)
    intro ch hch
    simp only [base64EncodeCore, List.mem_cons] at hch
    rcases hch with h1 | h1 | h1 | h1 | h1
    · exact Or.inl (h1 ▸ b64CharOf_mem_alphabet _ (by omega))
    · exact Or.inl (h1 ▸ b64CharOf_mem_alphabet _ (by omega))
    · exact Or.inl (h1 ▸ b64CharOf_mem_alphabet _ (by omega))
    · exact Or.inl (h1 ▸ b64CharOf_mem_alphabet _ (by omega))
    · exact base64EncodeCore_chars rest
        (fun b hb => h b (by simp [hb])) ch h1

/-- A list of base64 characters is never a marker line and contains no
whitespace. -/
theorem b64chars_facts (l : List Char)
    (hl : ∀ ch ∈ l, ch ∈ b64Alphabet ∨ ch = '=') :
    l ≠ METADATA_MARKER.data ∧ l ≠ CONTENT_MARKER.data ∧
    ∀ ch ∈ l, ¬ isRustWhitespace ch := by
  refine ⟨?_, ?_, ?_⟩
  · intro h
    have := hl '[' (h ▸ (by decide : '[' ∈ METADATA_MARKER.data))
    revert this
    decide
  · intro h
    have := hl '[' (h ▸ (by decide : '[' ∈ CONTENT_MARKER.data))
    revert this
    decide
  · intro ch hch
    rcases hl ch hch with h | h
    · exact (by decide : ∀ c ∈ b64Alphabet, ¬ isRustWhitespace c) ch h
    · rw [h]
      decide

theorem encrypt_data_chars (P : CryptoPrims) (W : CryptoPrimsWF P)
    (pt pw : String) (salt nonce : List Nat)
    (hsb : ∀ x ∈ salt, x < 256) (hnb : ∀ x ∈ nonce, x < 256) :
    ∀ ch ∈ (encrypt P pt pw salt nonce).data, ch ∈ b64Alphabet ∨ ch = '=' :=
  base64EncodeCore_chars _ (encrypt_combined_bytes P W pt pw salt nonce hsb hnb)

theorem encrypt_data_ne_nil (P : CryptoPrims) (pt pw : String)
    (salt nonce : List Nat) (hs : salt.length = 16) :
    (encrypt P pt pw salt nonce).data ≠ [] := by
  apply base64EncodeCore_ne_nil
  intro h0
  have h1 : salt = [] := (List.append_eq_nil.mp (List.append_eq_nil.mp h0).1).1
  rw [h1] at hs
  exact absurd hs (by decide)

/-- The file produced by re-encrypting a record is readable under the new
password and fails to decrypt under the old one. -/
theorem createEncryptedFile_props (P : CryptoPrims) (W : CryptoPrimsWF P)
    (m b old new : String) (sM nM sC nC : List Nat)
    (hsM : sM.length = 16) (hsMb : ∀ x ∈ sM, x < 256)
    (hnM : nM.length = 12) (hnMb : ∀ x ∈ nM, x < 256)
    (hsC : sC.length = 16) (hsCb : ∀ x ∈ sC, x < 256)
    (hnC : nC.length = 12) (hnCb : ∀ x ∈ nC, x < 256)
    (hsep : ∀ (salt n c : List Nat),
      P.tg (P.kdf old salt) n c ≠ P.tg (P.kdf new salt) n c) :
    recordReadableUnder P (createEncryptedFile P m b new sM nM sC nC) new ∧
    recordFailsUnder P (createEncryptedFile P m b new sM nM sC nC) old := by
  obtain ⟨hm1, hm2, hmw⟩ :=
    b64chars_facts _ (encrypt_data_chars P W m new sM nM hsMb hnMb)
  obtain ⟨hc1, hc2, hcw⟩ :=
    b64chars_facts _ (encrypt_data_chars P W b new sC nC hsCb hnCb)
  have hparse : parseEncryptedFile
      (toEncryptedFile (encrypt P m new sM nM) (encrypt P b new sC nC)) =
      .ok ⟨encrypt P m new sM nM, encrypt P b new sC nC⟩ :=
    parse_toEncryptedFile _ _ (encrypt_data_ne_nil P m new sM nM hsM)
      (encrypt_data_ne_nil P b new sC nC hsC) hmw hcw hm1 hm2 hc1 hc2
  constructor
  · exact ⟨_, m, b, hparse,
      decrypt_encrypt P W m new sM nM hsM hsMb hnM hnMb,
      decrypt_encrypt P W b new sC nC hsC hsCb hnC hnCb⟩
  · intro ef hef
    have hef2 : ef = ⟨encrypt P m new sM nM, encrypt P b new sC nC⟩ := by
      have h2 := hparse.symm.trans hef
      injection h2 with h3
      exact h3.symm
    subst hef2
    exact ⟨⟨_, decrypt_encrypt_wrong P W m new old sM nM hsM hsMb hnM hnMb
        (fun n c => hsep sM n c)⟩,
      ⟨_, decrypt_encrypt_wrong P W b new old sC nC hsC hsCb hnC hnCb
        (fun n c => hsep sC n c)⟩⟩

mutual

/-- After a successful rotation walk over one entry, every encrypted `.md`
file in the result is readable under the new password and undecryptable
under the old one. -/
theorem reEncryptTree_ok_files (P : CryptoPrims) (W : CryptoPrimsWF P)
    (tape : RandomTape) (TW : RandomTapeWF tape) (old new : String)
    (hsep : ∀ (salt n c : List Nat),
      P.tg (P.kdf old salt) n c ≠ P.tg (P.kdf new salt) n c) :
    ∀ (t : FsTree) (path : String) (i : Nat) (t' : FsTree) (i' : Nat)
      (evs : List WriteEvent),
      reEncryptTree P tape old new path t i = (none, t', i', evs) →
      ∀ nc ∈ t'.filesIn, hasMdExtension nc.1 = true →
        isEncryptedFormat nc.2 = true →
        recordReadableUnder P nc.2 new ∧ recordFailsUnder P nc.2 old
  | .file name content, path, i, t', i', evs => by
    intro h nc hnc hmd henc
    simp only [reEncryptTree] at h
    by_cases h1 : hasMdExtension name = true
    · rw [if_pos h1] at h
      by_cases h2 : isEncryptedFormat content = true
      · rw [if_pos h2] at h
        rcases hp : parseEncryptedFile content with e | ef <;> rw [hp] at h <;>
          simp only [] at h
        · simp at h
        · rcases hd1 : decrypt P ef.metadata old with e | metadata <;>
            rw [hd1] at h <;> simp only [] at h
          · simp at h
          · rcases hd2 : decrypt P ef.content old with e | body <;>
              rw [hd2] at h <;> simp only [] at h
            · simp at h
            · simp only [Prod.mk.injEq] at h
              obtain ⟨-, ht', -, -⟩ := h
              rw [← ht'] at hnc
              simp only [FsTree.filesIn, List.mem_cons, List.not_mem_nil,
                or_false] at hnc
              subst hnc
              exact createEncryptedFile_props P W metadata body old new
                (tape.salt i) (tape.nonce i) (tape.salt (i + 1))
                (tape.nonce (i + 1)) (TW.saltLen i) (TW.saltBytes i)
                (TW.nonceLen i) (TW.nonceBytes i) (TW.saltLen (i + 1))
                (TW.saltBytes (i + 1)) (TW.nonceLen (i + 1))
                (TW.nonceBytes (i + 1)) hsep
      · rw [if_neg h2] at h
        simp only [Prod.mk.injEq] at h
        obtain ⟨-, ht', -, -⟩ := h
        rw [← ht'] at hnc
        simp only [FsTree.filesIn, List.mem_cons, List.not_mem_nil,
          or_false] at hnc
        subst hnc
        exact absurd henc h2
    · rw [if_neg h1] at h
      simp only [Prod.mk.injEq] at h
      obtain ⟨-, ht', -, -⟩ := h
      rw [← ht'] at hnc
      simp only [FsTree.filesIn, List.mem_cons, List.not_mem_nil,
        or_false] at hnc
      subst hnc
      exact absurd hmd h1
  | .dir name entries, path, i, t', i', evs => by
    intro h nc hnc hmd henc
    simp only [reEncryptTree] at h
    rcases hr : reEncryptList P tape old new (path ++ "/" ++ name) entries i
      with ⟨err, es', i2, evs2⟩
    rw [hr] at h
    simp only [Prod.mk.injEq] at h
    obtain ⟨herr, ht', -, -⟩ := h
    subst herr
    rw [← ht'] at hnc
    simp only [FsTree.filesIn] at hnc
    exact reEncryptList_ok_files P W tape TW old new hsep entries
      (path ++ "/" ++ name) i es' i2 evs2 hr nc hnc hmd henc

/-- List version of `reEncryptTree_ok_files`. -/
theorem reEncryptList_ok_files (P : CryptoPrims) (W : CryptoPrimsWF P)
    (tape : RandomTape) (TW : RandomTapeWF tape) (old new : String)
    (hsep : ∀ (salt n c : List Nat),
      P.tg (P.kdf old salt) n c ≠ P.tg (P.kdf new salt) n c) :
    ∀ (ts : List FsTree) (path : String) (i : Nat) (ts' : List FsTree)
      (i' : Nat) (evs : List WriteEvent),
      reEncryptList P tape old new path ts i = (none, ts', i', evs) →
      ∀ nc ∈ filesInList ts', hasMdExtension nc.1 = true →
        isEncryptedFormat nc.2 = true →
        recordReadableUnder P nc.2 new ∧ recordFailsUnder P nc.2 old
  | [], path, i, ts', i', evs => by
    intro h nc hnc hmd henc
    simp only [reEncryptList, Prod.mk.injEq] at h
    obtain ⟨-, hts', -, -⟩ := h
    rw [← hts'] at hnc
    simp [filesInList] at hnc
  | t :: ts, path, i, ts', i', evs => by
    intro h nc hnc hmd henc
    simp only [reEncryptList] at h
    rcases hr : reEncryptTree P tape old new path t i with ⟨err, t2, i2, evs2⟩
    rw [hr] at h
    rcases err with _ | e0
    · simp only [] at h
      rcases hr2 : reEncryptList P tape old new path ts i2 with
        ⟨err2, ts2, i3, evs3⟩
      rw [hr2] at h
      simp only [Prod.mk.injEq] at h
      obtain ⟨herr2, hts', -, -⟩ := h
      subst herr2
      rw [← hts'] at hnc
      simp only [filesInList] at hnc
      rcases List.mem_append.mp hnc with hm | hm
      · exact reEncryptTree_ok_files P W tape TW old new hsep t path i t2 i2
          evs2 hr nc hm hmd henc
      · exact reEncryptList_ok_files P W tape TW old new hsep ts path i2 ts2
          i3 evs3 hr2 nc hm hmd henc
    · simp only [] at h
      exact absurd h (by simp)

end

/-- **C2**: if `changeMasterPasswordVault old new` succeeds, then every
`.md` record file in encrypted format in the resulting workspace decrypts
successfully under `new` and fails to decrypt under `old` (the separation
hypothesis `hsep` is the ideal-cipher fact that the two passwords derive
keys with distinct authentication tags). -/
theorem claim_C2_rotation_correctness (P : CryptoPrims) (W : CryptoPrimsWF P)
    (H : HashPrims) (tape : RandomTape) (TW : RandomTapeWF tape) (rand : Nat)
    (s : VaultState) (old new : String)
    (hsep : ∀ (salt n c : List Nat),
      P.tg (P.kdf old salt) n c ≠ P.tg (P.kdf new salt) n c)
    (st : VaultState) (tr : List WriteEvent)
    (hrun : changeMasterPasswordVault P H tape rand s old new = (.ok (), st, tr)) :
    ∀ nc ∈ st.folders.filesIn, hasMdExtension nc.1 = true →
      isEncryptedFormat nc.2 = true →
      recordReadableUnder P nc.2 new ∧ recordFailsUnder P nc.2 old := by
  unfold changeMasterPasswordVault at hrun
  rcases hws : s.workspacePath with _ | ws <;> rw [hws] at hrun
  · exact absurd hrun (by simp)
  · simp only [] at hrun
    rcases hh : s.hashFile with _ | storedHash <;> rw [hh] at hrun
    · exact absurd hrun (by simp)
    · simp only [] at hrun
      by_cases hv : H.verifyPassword old storedHash = true
      · rw [if_pos hv] at hrun
        rcases hr : reEncryptTree P tape old new ws s.folders 0 with
          ⟨err, t', i2, evs⟩
        rw [hr] at hrun
        rcases err with _ | e0
        · simp only [Prod.mk.injEq] at hrun
          obtain ⟨-, hst, -⟩ := hrun
          intro nc hnc hmd henc
          rw [← hst] at hnc
          exact reEncryptTree_ok_files P W tape TW old new hsep s.folders ws 0
            t' i2 evs hr nc (by simpa using hnc) hmd henc
        · exact absurd hrun (by simp)
      · rw [if_neg hv] at hrun
        exact absurd hrun (by simp)

theorem trivTape_wf : RandomTapeWF trivTape := by
  refine ⟨?_, ?_, ?_, ?_⟩
  · intro i
    simp [trivTape]
  · intro i b hb
    simp [trivTape] at hb
    omega
  · intro i
    simp [trivTape]
  · intro i b hb
    simp [trivTape] at hb
    omega

/-- The concrete primitives separate the passwords `"old"` and `"new"`:
their derived keys yield different tags. -/
theorem trivPrims_sep : ∀ (salt n c : List Nat),
    trivPrims.tg (trivPrims.kdf "old" salt) n c ≠
    trivPrims.tg (trivPrims.kdf "new" salt) n c := by
  intro salt n c
  simp only [trivPrims]
  decide

/-- Witness for C2 on the demo workspace. -/
theorem claim_C2_rotation_correctness_witness :
    (changeMasterPasswordVault trivPrims trivHash trivTape 0 demoState
      "old" "new").1 = .ok () ∧
    ∀ nc ∈ (changeMasterPasswordVault trivPrims trivHash trivTape 0 demoState
      "old" "new").2.1.folders.filesIn,
      hasMdExtension nc.1 = true → isEncryptedFormat nc.2 = true →
      recordReadableUnder trivPrims nc.2 "new" ∧
      recordFailsUnder trivPrims nc.2 "old" :=
  ⟨by decide,
    claim_C2_rotation_correctness trivPrims trivPrims_wf trivHash trivTape
      trivTape_wf 0 demoState "old" "new" trivPrims_sep _ _
      (Prod.ext (by decide) rfl)⟩

/-- Witness for the amended C3 theorem at concrete failing inputs. -/
theorem claim_C3_decrypt_error_messages_witness :
    base64Decode (base64Encode (List.replicate 44 1)) =
      some (List.replicate 44 1) ∧
    decrypt trivPrims (base64Encode (List.replicate 44 1)) "pw" =
      .error "Decryption failed - wrong password?" ∧
    decrypt trivPrims "" "pw" = .error "Invalid encrypted data" :=
  ⟨by decide,
    (claim_C3_decrypt_error_messages trivPrims).1
      (base64Encode (List.replicate 44 1)) "pw" (List.replicate 44 1)
      (by decide) (by decide) (by decide),
    (claim_C3_decrypt_error_messages trivPrims).2.1 "" "pw" [] (by decide)
      (by decide)⟩

end Claudia
